import Mathlib

set_option maxHeartbeats 1600000

/-!
Shallow embedding of the automaton definition reconstruction and
validation pipeline of the `python-fsa` repository (files `main3-0.py`
and `fsm_creator.py`): the JSON definition codec
(`serialize_automaton` / `deserialize_automaton`), the graph-text
reconstructor (`parse_dot_file`) and the flat transition-record
builders inside `main` and the interactive creator loop.

Python strings are modelled as Lean `String`, with the handful of
Python `str` methods used by the code (`strip`, `split`, `replace`,
`startswith`, `in`) re-implemented as structurally recursive functions
over the character list, so that every definition evaluates inside the
kernel.
-/

namespace PyFSA

/-- The six ASCII whitespace characters stripped by Python `str.strip()`. -/
def pyIsSpace (c : Char) : Bool :=
  c == ' ' || c == '\t' || c == '\n' || c == '\r' || c == '\x0b' || c == '\x0c'

/-- Python `str.strip()` on a character list. -/
def stripCL (l : List Char) : List Char :=
  ((l.dropWhile pyIsSpace).reverse.dropWhile pyIsSpace).reverse

/-- Python `str.strip()`. -/
def pyStrip (s : String) : String := String.mk (stripCL s.data)

/-- Python `str.split(sep)` for a single-character separator,
on character lists.  Always returns at least one part. -/
def splitChar (c : Char) : List Char → List (List Char)
  | [] => [[]]
  | a :: as =>
    if a = c then
      [] :: splitChar c as
    else
      let r := splitChar c as
      (a :: r.headD []) :: r.tail

/-- Python `str.split(sep)` for a single-character separator. -/
def pySplitChar (c : Char) (s : String) : List String :=
  (splitChar c s.data).map String.mk

/-- Python `str.split(sep)` for a multi-character separator, with fuel
(the fuel is set to an amount that is never exhausted). -/
def splitSubF (sep : List Char) : Nat → List Char → List Char → List (List Char)
  | 0, s, acc => [acc ++ s]
  | _ + 1, [], acc => [acc]
  | n + 1, c :: rest, acc =>
    if sep ≠ [] ∧ sep.isPrefixOf (c :: rest) then
      acc :: splitSubF sep n ((c :: rest).drop sep.length) []
    else
      splitSubF sep n rest (acc ++ [c])

/-- Python `str.split(sep)` for an arbitrary non-empty separator. -/
def pySplitSub (sep s : String) : List String :=
  (splitSubF sep.data (s.data.length + 1) s.data []).map String.mk

/-- Python `str.replace(old, new)` on character lists, with fuel. -/
def replaceF (old new : List Char) : Nat → List Char → List Char
  | 0, s => s
  | _ + 1, [] => []
  | n + 1, c :: rest =>
    if old ≠ [] ∧ old.isPrefixOf (c :: rest) then
      new ++ replaceF old new n ((c :: rest).drop old.length)
    else
      c :: replaceF old new n rest

/-- Python `str.replace(old, new)` (for a non-empty `old`). -/
def pyReplace (s old new : String) : String :=
  String.mk (replaceF old.data new.data (s.data.length + 1) s.data)

/-- Python `str.startswith(p)`. -/
def pyStartsWith (p s : String) : Bool := p.data.isPrefixOf s.data

/-- Python substring containment `sub in s` on character lists. -/
def containsCL (sub : List Char) : List Char → Bool
  | [] => sub.isEmpty
  | c :: rest => sub.isPrefixOf (c :: rest) || containsCL sub rest

/-- Python substring containment `sub in s`. -/
def pyContainsSub (sub s : String) : Bool := containsCL sub.data s.data

/-- Python `str.lower()` for ASCII text. -/
def pyToLower (s : String) : String :=
  String.mk (s.data.map (fun c =>
    if 'A' ≤ c ∧ c ≤ 'Z' then Char.ofNat (c.toNat + 32) else c))

/-- Python code-point comparison of strings (used by `sorted`). -/
def clLt : List Char → List Char → Bool
  | [], [] => false
  | [], _ :: _ => true
  | _ :: _, [] => false
  | a :: as, b :: bs =>
    if a.val < b.val then true
    else if b.val < a.val then false
    else clLt as bs

/-- Insert a string into a strictly ascending list, keeping it
strictly ascending (duplicates are dropped). -/
def insertSortedDistinct (x : String) : List String → List String
  | [] => [x]
  | y :: ys =>
    if x = y then y :: ys
    else if clLt x.data y.data then x :: y :: ys
    else y :: insertSortedDistinct x ys

/-- Python `sorted(set(l))`: the strictly ascending enumeration of the
distinct elements of `l`. -/
def pySortedSet (l : List String) : List String :=
  l.foldl (fun acc x => insertSortedDistinct x acc) []

/-- Python `set.add`: sets are modelled as duplicate-free lists;
adding an element appends it when it is not yet present. -/
def setAdd (l : List String) (x : String) : List String :=
  if x ∈ l then l else l ++ [x]

/-- Python `dict.get(k)` on an insertion-ordered association list. -/
def alistGet {α : Type} (m : List ((String × String) × α)) (k : String × String) :
    Option α :=
  match m with
  | [] => none
  | (k₀, v₀) :: rest => if k₀ = k then some v₀ else alistGet rest k

/-- Python `dict[k] = v` on an insertion-ordered association list:
an existing binding is updated in place, a new one is appended. -/
def alistSet {α : Type} (m : List ((String × String) × α)) (k : String × String)
    (v : α) : List ((String × String) × α) :=
  match m with
  | [] => [(k, v)]
  | (k₀, v₀) :: rest =>
    if k₀ = k then (k, v) :: rest else (k₀, v₀) :: alistSet rest k v

/-! ### Data model

A transition value is either a single target state (deterministic
automata, `DFA` objects) or a tuple of target states (`NFA` objects).
-/

/-- A transition-table value: a single next state (DFA) or a tuple of
next states (NFA). -/
inductive TValue where
  | single (s : String) : TValue
  | many (l : List String) : TValue
deriving DecidableEq, Repr

/-- Python `list(v)` / `tuple(v)` on a transition value: a tuple is
enumerated as-is, a string is enumerated character by character. -/
def pyIterate : TValue → List String
  | .single s => s.data.map (fun c => String.mk [c])
  | .many l => l

/-- An automaton definition, the common shape of the `DFA` and `NFA`
objects handled by the scripts.  `isDFA` plays the role of the
`isinstance(automaton, DFA)` runtime type inspection; the set-valued
fields (`alphabet`, `states`, `final`) are insertion-ordered lists
whose membership is the set membership; `transitions` is an
insertion-ordered association list, mirroring a Python dict. -/
structure Defn where
  isDFA : Bool
  alphabet : List String
  states : List String
  initial : Option String
  final : List String
  transitions : List ((String × String) × TValue)
deriving DecidableEq, Repr

/-- The persisted JSON record produced by `serialize_automaton`:
transition keys are composite `"state,symbol"` strings. -/
structure Record where
  type : String
  alphabet : List String
  states : List String
  initial : Option String
  final : List String
  transitions : List (String × TValue)
deriving DecidableEq, Repr

/-! ### Definition codec (`serialize_automaton` / `deserialize_automaton`,
`main3-0.py` lines 8-45; identical in `main2-0.py`) -/

/-- `serialize_automaton`: the composite key is `f"{state},{symbol}"`;
a DFA value is stored as-is, an NFA value through `list(...)`. -/
def serialize_automaton (a : Defn) : Record :=
  { type := if a.isDFA then "dfa" else "nfa"
    alphabet := a.alphabet
    states := a.states
    initial := a.initial
    final := a.final
    transitions := a.transitions.map (fun p =>
      (p.1.1 ++ "," ++ p.1.2,
       if a.isDFA then p.2 else TValue.many (pyIterate p.2))) }

/-- One transition entry of `deserialize_automaton`: the composite key
is split on `','` and unpacked into exactly two names
(`state, symbol = key.split(',')`); a key whose split does not have
exactly two parts raises a `ValueError`; a DFA value is stored as-is,
an NFA value through `tuple(...)`. -/
def deserPair (isdfa : Bool)
    (acc : List ((String × String) × TValue)) (kv : String × TValue) :
    Except String (List ((String × String) × TValue)) :=
  match pySplitChar ',' kv.1 with
  | [state, symbol] =>
    Except.ok (alistSet acc (state, symbol)
      (if isdfa then kv.2 else TValue.many (pyIterate kv.2)))
  | _ => Except.error "ValueError: key does not unpack into state, symbol"

/-- `deserialize_automaton`: rebuild a definition from a persisted
record; fails exactly when some composite key does not split into two
parts.  No membership validation of any kind is performed. -/
def deserialize_automaton (r : Record) : Except String Defn := do
  let isdfa := r.type == "dfa"
  let ts ← r.transitions.foldlM (deserPair isdfa)
    ([] : List ((String × String) × TValue))
  Except.ok
    { isDFA := isdfa
      alphabet := r.alphabet
      states := r.states
      initial := r.initial
      final := r.final
      transitions := ts }

/-! ### Flat transition-record builders (`main3-0.py` `main`,
lines 256-301) -/

/-- Errors reported (via `sys.exit(1)` after a message) by the flat
transition-record builders of `main3-0.py`. -/
inductive BuildErr where
  | malformed (t : String) : BuildErr
  | unknownState (t state : String) : BuildErr
  | unknownSymbol (t symbol : String) : BuildErr
  | unknownNext (t next : String) : BuildErr
  | duplicate (state symbol : String) : BuildErr
deriving DecidableEq, Repr

/-- One iteration of the DFA branch of the transition loop of
`main3-0.py` `main` (lines 258-277): split, validate memberships,
reject a duplicate `(state, symbol)` pair, insert the single target. -/
def addDFATransition (states alphabet : List String)
    (table : List ((String × String) × String)) (t : String) :
    Except BuildErr (List ((String × String) × String)) :=
  match (pySplitChar ',' t).map pyStrip with
  | [state, symbol, next_state] =>
    if state ∉ states then Except.error (.unknownState t state)
    else if symbol ∉ alphabet then Except.error (.unknownSymbol t symbol)
    else if next_state ∉ states then Except.error (.unknownNext t next_state)
    else if (alistGet table (state, symbol)).isSome then
      Except.error (.duplicate state symbol)
    else Except.ok (table ++ [((state, symbol), next_state)])
  | _ => Except.error (.malformed t)

/-- The full DFA transition-table build of `main3-0.py` `main`. -/
def buildDFATable (states alphabet : List String) (ts : List String) :
    Except BuildErr (List ((String × String) × String)) :=
  ts.foldlM (addDFATransition states alphabet) []

/-- One iteration of the NFA branch of the transition loop of
`main3-0.py` `main` (lines 278-301): an existing accumulated target
tuple is extended by tuple concatenation (`+=`), otherwise a new entry
is created. -/
def addNFATransition (states alphabet : List String)
    (table : List ((String × String) × List String)) (t : String) :
    Except BuildErr (List ((String × String) × List String)) :=
  match (pySplitChar ',' t).map pyStrip with
  | state :: symbol :: rest =>
    if rest = [] then Except.error (.malformed t)
    else if state ∉ states then Except.error (.unknownState t state)
    else if symbol ∉ alphabet then Except.error (.unknownSymbol t symbol)
    else
      match rest.find? (fun ns => decide (ns ∉ states)) with
      | some ns => Except.error (.unknownNext t ns)
      | none =>
        match alistGet table (state, symbol) with
        | some cur => Except.ok (alistSet table (state, symbol) (cur ++ rest))
        | none => Except.ok (table ++ [((state, symbol), rest)])
  | _ => Except.error (.malformed t)

/-- The full NFA transition-table build of `main3-0.py` `main`. -/
def buildNFATable (states alphabet : List String) (ts : List String) :
    Except BuildErr (List ((String × String) × List String)) :=
  ts.foldlM (addNFATransition states alphabet) []

/-! ### Interactive deterministic builder (`fsm_creator.py` `main`,
lines 90-122, DFA branch).  An invalid entry prints a message and
`continue`s (it is skipped, the loop keeps running); a valid entry is
assigned with `transitions[(from_state, symbol)] = to_states_input[0]`
with no duplicate check. -/

/-- One iteration of the `fsm_creator.py` transition-entry loop for a
DFA: invalid input leaves the table unchanged, valid input assigns the
pair, silently overwriting any earlier binding. -/
def creatorDFAStep (states alphabet : List String)
    (table : List ((String × String) × String)) (input : String) :
    List ((String × String) × String) :=
  match (pySplitChar ',' input).map pyStrip with
  | from_state :: symbol :: to_states =>
    if to_states = [] then table
    else if from_state ∉ states then table
    else if symbol ∉ alphabet then table
    else if to_states.any (fun ts => decide (ts ∉ states)) then table
    else if to_states.length > 1 then table
    else alistSet table (from_state, symbol) (to_states.headD "")
  | _ => table

/-- The `fsm_creator.py` DFA transition-table build over a sequence of
entered lines; the loop stops at the first entry equal to `done`
(after stripping and lowercasing). -/
def creatorBuildDFA (states alphabet : List String) (inputs : List String) :
    List ((String × String) × String) :=
  ((inputs.map pyStrip).takeWhile (fun i => pyToLower i ≠ "done")).foldl
    (creatorDFAStep states alphabet) []

/-! ### Graph-text reconstructor (`parse_dot_file`, `main3-0.py`
lines 81-195) -/

/-- The accumulator of the line scan of `parse_dot_file`. -/
structure ScanState where
  states : List String
  alphabet : List String
  transitions : List ((String × String) × List String)
  initial : Option String
  final : List String
  isNfa : Bool
deriving DecidableEq, Repr

/-- The empty accumulator (`parse_dot_file` lines 93-98);
`automaton_type` starts as `'dfa'`. -/
def initScan : ScanState :=
  { states := [], alphabet := [], transitions := [], initial := none,
    final := [], isNfa := false }

/-- One iteration of the transition-accumulation loop of
`parse_dot_file` (lines 139-146): the target is appended to the list
already collected for `(from_state, symbol)` and the automaton is
reclassified nondeterministic when that list now holds more than one
entry (distinct or not). -/
def accumTransition (from_state to_state : String)
    (tn : List ((String × String) × List String) × Bool) (sym : String) :
    List ((String × String) × List String) × Bool :=
  let cur := ((alistGet tn.1 (from_state, sym)).getD []) ++ [to_state]
  (alistSet tn.1 (from_state, sym) cur,
   if cur.length > 1 then true else tn.2)

/-- The label parsing of a transition line (`parse_dot_file` lines
119-131): returns the source state, the target state and the list of
symbols (a label is split on commas; a missing label yields the single
empty symbol). -/
def lineEdge (line : String) : String × String × List String :=
  let parts := pySplitSub "->" line
  let from_state := pyStrip (parts.headD "")
  let to_part := pyStrip ((parts.get? 1).getD "")
  let label_match := pySplitSub "label = \"" to_part
  let pair :=
    if label_match.length > 1 then
      let label_str := (pySplitChar '"' ((label_match.get? 1).getD "")).headD ""
      let to_state := pyStrip (pyReplace (pyStrip (label_match.headD "")) " [" "")
      (to_state, label_str)
    else
      (pyStrip to_part, "")
  let symbols :=
    if pair.2 ≠ "" then (pySplitChar ',' pair.2).map pyStrip else [""]
  (from_state, pair.1, symbols)

/-- The alphabet update for one symbol of a label
(`parse_dot_file` lines 135-137): only a non-empty symbol is added. -/
def addSymbol (al : List String) (sym : String) : List String :=
  if sym ≠ "" then setAdd al sym else al

/-- The state/alphabet/transition updates performed for one parsed
transition edge (`parse_dot_file` lines 133-146). -/
def applyEdge (st : ScanState) (from_state to_state : String)
    (symbols : List String) : ScanState :=
  let tn := symbols.foldl (accumTransition from_state to_state)
    (st.transitions, st.isNfa)
  { st with
    states := setAdd (setAdd st.states from_state) to_state
    alphabet := symbols.foldl addSymbol st.alphabet
    transitions := tn.1
    isNfa := tn.2 }

/-- The body of the transition branch of the scan
(`parse_dot_file` lines 117-146), applied to one already-stripped
line containing `"->"` and not starting with `"null ->"`. -/
def scanTransitionLine (st : ScanState) (line : String) : ScanState :=
  applyEdge st (lineEdge line).1 (lineEdge line).2.1 (lineEdge line).2.2

/-- One `';'`-separated part of a `node [shape = doublecircle]` line
(`parse_dot_file` lines 106-113): only a part that itself contains
the token `doublecircle` contributes a final state. -/
def markFinalPart (st : ScanState) (part : String) : ScanState :=
  if pyContainsSub "doublecircle" part then
    let state_name := pyStrip (pyReplace part "node [shape = doublecircle]" "")
    if state_name ≠ "" then
      { st with final := setAdd st.final state_name,
                states := setAdd st.states state_name }
    else st
  else st

/-- One iteration of the line loop of `parse_dot_file`
(lines 104-150). -/
def processLine (st : ScanState) (rawLine : String) : ScanState :=
  let line := pyStrip rawLine
  if pyStartsWith "node [shape = doublecircle]" line then
    (pySplitChar ';' line).foldl markFinalPart st
  else if pyStartsWith "node [shape = circle]" line then
    st
  else if pyContainsSub "->" line && ! pyStartsWith "null ->" line then
    scanTransitionLine st line
  else if pyStartsWith "null ->" line then
    let name := pyStrip (pyReplace (pyStrip (pyReplace line "null ->" "")) ";" "")
    { st with initial := some name, states := setAdd st.states name }
  else st

/-- The full line scan of `parse_dot_file` over the raw source text
(`dot_source.split('\n')` followed by the line loop). -/
def scanDot (src : String) : ScanState :=
  (pySplitChar '\n' src).foldl processLine initScan

/-- The error raised while converting accumulated transition lists
(`parse_dot_file` lines 156-157): a `ValueError` carrying the source
state, the symbol and the offending target list. -/
inductive ParseErr where
  | multiTargets (state symbol : String) (targets : List String) : ParseErr
deriving DecidableEq, Repr

/-- Conversion of one accumulated target list
(`parse_dot_file` lines 153-160): for the deterministic
classification the list must be a singleton (otherwise the
`ValueError` of line 157 is raised); for the nondeterministic
classification the list is deduplicated and sorted. -/
def convertTransition (isNfa : Bool)
    (acc : List ((String × String) × TValue))
    (p : (String × String) × List String) :
    Except ParseErr (List ((String × String) × TValue)) :=
  if isNfa = false then
    if p.2.length = 1 then
      Except.ok (acc ++ [(p.1, TValue.single (p.2.headD ""))])
    else
      Except.error (.multiTargets p.1.1 p.1.2 p.2)
  else
    Except.ok (acc ++ [(p.1, TValue.many (pySortedSet p.2))])

/-- The post-pass of `parse_dot_file` (lines 162-171): the source and
target states of a processed transition are added to the state set. -/
def addEndpoints (sts : List String) (p : (String × String) × TValue) :
    List String :=
  match p.2 with
  | .single ns => setAdd (setAdd sts p.1.1) ns
  | .many nss => nss.foldl setAdd (setAdd sts p.1.1)

/-- Finalization of the scan (`parse_dot_file` lines 152-188):
convert every accumulated target list, run the endpoint post-pass,
and assemble the definition record. -/
def finalizeScan (st : ScanState) : Except ParseErr Defn := do
  let processed ← st.transitions.foldlM (convertTransition st.isNfa)
    ([] : List ((String × String) × TValue))
  let sts := processed.foldl addEndpoints st.states
  Except.ok
    { isDFA := ! st.isNfa
      alphabet := st.alphabet
      states := sts
      initial := st.initial
      final := st.final
      transitions := processed }

/-- `parse_dot_file` on the raw text of the graph file: scan every
line, then finalize. -/
def parse_dot_file (src : String) : Except ParseErr Defn :=
  finalizeScan (scanDot src)

/-- The target states carried by a transition value. -/
def tvTargets : TValue → List String
  | .single s => [s]
  | .many l => l

deriving instance DecidableEq for Except

/-! ### Lemmas about the container primitives -/

theorem mem_setAdd_iff {l : List String} {x y : String} :
    y ∈ setAdd l x ↔ y ∈ l ∨ y = x := by
  unfold setAdd
  split
  · constructor
    · exact fun h => Or.inl h
    · rintro (h | rfl)
      · exact h
      · assumption
  · simp [List.mem_append]

theorem subset_setAdd {l : List String} {x : String} : l ⊆ setAdd l x :=
  fun _ h => mem_setAdd_iff.mpr (Or.inl h)

theorem mem_setAdd_self {l : List String} {x : String} : x ∈ setAdd l x :=
  mem_setAdd_iff.mpr (Or.inr rfl)

theorem alistGet_alistSet_self {α : Type} {m : List ((String × String) × α)}
    {k : String × String} {v : α} : alistGet (alistSet m k v) k = some v := by
  induction m with
  | nil => simp [alistSet, alistGet]
  | cons p rest ih =>
    by_cases h : p.1 = k
    · simp [alistSet, alistGet, h]
    · simp [alistSet, alistGet, h, ih]

theorem mem_alistSet {α : Type} {m : List ((String × String) × α)}
    {k : String × String} {v : α} {q : (String × String) × α}
    (h : q ∈ alistSet m k v) : q = (k, v) ∨ q ∈ m := by
  induction m with
  | nil => simpa [alistSet] using h
  | cons p rest ih =>
    by_cases hk : p.1 = k
    · rw [show alistSet (p :: rest) k v = (k, v) :: rest by
        simp [alistSet, hk]] at h
      rcases List.mem_cons.mp h with h | h
      · exact Or.inl h
      · exact Or.inr (List.mem_cons_of_mem _ h)
    · rw [show alistSet (p :: rest) k v = p :: alistSet rest k v by
        simp [alistSet, hk]] at h
      rcases List.mem_cons.mp h with rfl | h
      · exact Or.inr (List.mem_cons_self _ _)
      · rcases ih h with h | h
        · exact Or.inl h
        · exact Or.inr (List.mem_cons_of_mem _ h)

theorem self_mem_alistSet {α : Type} {m : List ((String × String) × α)}
    {k : String × String} {v : α} : (k, v) ∈ alistSet m k v := by
  induction m with
  | nil => simp [alistSet]
  | cons p rest ih =>
    by_cases hk : p.1 = k
    · simp [alistSet, hk]
    · simp only [alistSet, hk, if_false]
      exact List.mem_cons_of_mem _ ih

theorem mem_alistSet_of_ne {α : Type} {m : List ((String × String) × α)}
    {k : String × String} {v : α} {q : (String × String) × α}
    (hq : q ∈ m) (hne : q.1 ≠ k) : q ∈ alistSet m k v := by
  induction m with
  | nil => cases hq
  | cons p rest ih =>
    by_cases hk : p.1 = k
    · rw [show alistSet (p :: rest) k v = (k, v) :: rest by
        simp [alistSet, hk]]
      rcases List.mem_cons.mp hq with rfl | hq
      · exact absurd hk hne
      · exact List.mem_cons_of_mem _ hq
    · rw [show alistSet (p :: rest) k v = p :: alistSet rest k v by
        simp [alistSet, hk]]
      rcases List.mem_cons.mp hq with rfl | hq
      · exact List.mem_cons_self _ _
      · exact List.mem_cons_of_mem _ (ih hq)

theorem alistGet_eq_some_of_mem_nodup {α : Type}
    {m : List ((String × String) × α)} {k : String × String} {v : α}
    (hnd : (m.map Prod.fst).Nodup) (hm : (k, v) ∈ m) :
    alistGet m k = some v := by
  induction m with
  | nil => cases hm
  | cons p rest ih =>
    rcases List.mem_cons.mp hm with heq | hm
    · rw [← heq]
      simp [alistGet]
    · have hk : p.1 ≠ k := by
        intro hk
        rw [List.map_cons, List.nodup_cons, hk] at hnd
        exact hnd.1 (List.mem_map.mpr ⟨(k, v), hm, rfl⟩)
      simp only [alistGet, hk, if_false]
      rw [List.map_cons, List.nodup_cons] at hnd
      exact ih hnd.2 hm

theorem mem_of_alistGet_eq_some {α : Type} {m : List ((String × String) × α)}
    {k : String × String} {v : α} (h : alistGet m k = some v) : (k, v) ∈ m := by
  induction m with
  | nil => cases h
  | cons p rest ih =>
    by_cases hk : p.1 = k
    · simp only [alistGet, hk, if_true, Option.some.injEq] at h
      subst h
      rw [← hk]
      exact List.mem_cons_self _ _
    · simp only [alistGet, hk, if_false] at h
      exact List.mem_cons_of_mem _ (ih h)

theorem mem_keys_alistSet {α : Type} {m : List ((String × String) × α)}
    {k a : String × String} {v : α}
    (h : a ∈ (alistSet m k v).map Prod.fst) :
    a = k ∨ a ∈ m.map Prod.fst := by
  rcases List.mem_map.mp h with ⟨q, hq, rfl⟩
  rcases mem_alistSet hq with rfl | hq
  · exact Or.inl rfl
  · exact Or.inr (List.mem_map.mpr ⟨q, hq, rfl⟩)

theorem keys_nodup_alistSet {α : Type} {m : List ((String × String) × α)}
    {k : String × String} {v : α} (hnd : (m.map Prod.fst).Nodup) :
    ((alistSet m k v).map Prod.fst).Nodup := by
  induction m with
  | nil => simp [alistSet]
  | cons p rest ih =>
    rw [List.map_cons, List.nodup_cons] at hnd
    rcases hnd with ⟨hp, hrest⟩
    by_cases hk : p.1 = k
    · rw [show alistSet (p :: rest) k v = (k, v) :: rest by
        simp [alistSet, hk]]
      rw [List.map_cons, List.nodup_cons]
      exact ⟨hk ▸ hp, hrest⟩
    · rw [show alistSet (p :: rest) k v = p :: alistSet rest k v by
        simp [alistSet, hk]]
      rw [List.map_cons, List.nodup_cons]
      refine ⟨fun hmem => ?_, ih hrest⟩
      rcases mem_keys_alistSet hmem with h | h
      · exact hk h
      · exact hp h

theorem alistGet_eq_none_iff {α : Type} {m : List ((String × String) × α)}
    {k : String × String} :
    alistGet m k = none ↔ k ∉ m.map Prod.fst := by
  induction m with
  | nil => simp [alistGet]
  | cons p rest ih =>
    by_cases hk : p.1 = k
    · subst hk
      simp [alistGet]
    · simp [alistGet, hk, ih, Ne.symm hk]

theorem alistSet_of_not_mem_keys {α : Type} {m : List ((String × String) × α)}
    {k : String × String} {v : α} (h : k ∉ m.map Prod.fst) :
    alistSet m k v = m ++ [(k, v)] := by
  induction m with
  | nil => simp [alistSet]
  | cons p rest ih =>
    simp only [List.map_cons, List.mem_cons] at h
    push_neg at h
    simp only [alistSet, Ne.symm h.1, if_false, List.cons_append, List.cons.injEq,
      true_and]
    exact ih h.2

theorem mem_insertSortedDistinct {x z : String} {l : List String}
    (h : z ∈ insertSortedDistinct x l) : z = x ∨ z ∈ l := by
  induction l with
  | nil => simpa [insertSortedDistinct] using h
  | cons y ys ih =>
    by_cases hxy : x = y
    · simp only [insertSortedDistinct, hxy, if_true] at h
      exact Or.inr h
    · simp only [insertSortedDistinct, hxy, if_false] at h
      by_cases hlt : clLt x.data y.data
      · simp only [hlt, if_true] at h
        rcases List.mem_cons.mp h with rfl | h
        · exact Or.inl rfl
        · exact Or.inr h
      · simp only [hlt, if_false] at h
        rcases List.mem_cons.mp h with rfl | h
        · exact Or.inr (List.mem_cons_self _ _)
        · rcases ih h with h | h
          · exact Or.inl h
          · exact Or.inr (List.mem_cons_of_mem _ h)

theorem splitChar_not_mem {c : Char} {l : List Char} (h : c ∉ l) :
    splitChar c l = [l] := by
  induction l with
  | nil => rfl
  | cons a as ih =>
    have hac : a ≠ c := fun hac => h (hac ▸ List.mem_cons_self a as)
    have has : c ∉ as := fun has => h (List.mem_cons_of_mem _ has)
    simp [splitChar, hac, ih has]

theorem splitChar_append {c : Char} {xs ys : List Char} (h : c ∉ xs) :
    splitChar c (xs ++ c :: ys) = xs :: splitChar c ys := by
  induction xs with
  | nil => simp [splitChar]
  | cons a as ih =>
    have hac : a ≠ c := fun hac => h (hac ▸ List.mem_cons_self a as)
    have has : c ∉ as := fun has => h (List.mem_cons_of_mem _ has)
    simp [splitChar, hac, ih has]

/-- A composite key `state ++ "," ++ symbol` with comma-free
components splits back into exactly its two components. -/
theorem pySplitChar_comma_key {s t : String}
    (hs : (',' : Char) ∉ s.data) (ht : (',' : Char) ∉ t.data) :
    pySplitChar ',' (s ++ "," ++ t) = [s, t] := by
  have hdata : (s ++ "," ++ t).data = s.data ++ ',' :: t.data := by
    simp [String.data_append]
  unfold pySplitChar
  rw [hdata, splitChar_append hs, splitChar_not_mem ht]
  simp [List.map_cons]

theorem mem_pySortedSet {l : List String} {z : String}
    (h : z ∈ pySortedSet l) : z ∈ l := by
  suffices H : ∀ (l : List String) (acc : List String),
      z ∈ l.foldl (fun acc x => insertSortedDistinct x acc) acc →
      z ∈ acc ∨ z ∈ l by
    rcases H l [] h with h | h
    · cases h
    · exact h
  intro l
  induction l with
  | nil => intro acc h; exact Or.inl h
  | cons x xs ih =>
    intro acc h
    rcases ih (insertSortedDistinct x acc) h with h | h
    · rcases mem_insertSortedDistinct h with rfl | h
      · exact Or.inr (List.mem_cons_self _ _)
      · exact Or.inl h
    · exact Or.inr (List.mem_cons_of_mem _ h)

/-! ### The invariant of the line scan -/

/-- Closure of a raw transition multimap with respect to a state set
and an alphabet: sources and targets are known states; every non-empty
symbol is a known alphabet symbol. -/
def TransClosed (states alphabet : List String)
    (tr : List ((String × String) × List String)) : Prop :=
  ∀ p ∈ tr, p.1.1 ∈ states ∧ (∀ t ∈ p.2, t ∈ states) ∧
    (p.1.2 ≠ "" → p.1.2 ∈ alphabet)

/-- Invariant of a transitions/nfa-flag pair during edge
accumulation. -/
def TNInv (states alphabet : List String)
    (tn : List ((String × String) × List String) × Bool) : Prop :=
  (tn.1.map Prod.fst).Nodup ∧
  (∀ p ∈ tn.1, 1 ≤ p.2.length) ∧
  (tn.2 = true ↔ ∃ p ∈ tn.1, 2 ≤ p.2.length) ∧
  TransClosed states alphabet tn.1

/-- Invariant maintained by the line scan of `parse_dot_file`. -/
def ScanInv (st : ScanState) : Prop :=
  TNInv st.states st.alphabet (st.transitions, st.isNfa)

theorem transClosed_mono {states states' alphabet alphabet' : List String}
    {tr : List ((String × String) × List String)}
    (hs : states ⊆ states') (ha : alphabet ⊆ alphabet')
    (h : TransClosed states alphabet tr) :
    TransClosed states' alphabet' tr := by
  intro p hp
  rcases h p hp with ⟨h1, h2, h3⟩
  exact ⟨hs h1, fun t ht => hs (h2 t ht), fun hne => ha (h3 hne)⟩

theorem accumTransition_TNInv {states alphabet : List String}
    {from_state to_state sym : String}
    {tn : List ((String × String) × List String) × Bool}
    (hfrom : from_state ∈ states) (hto : to_state ∈ states)
    (hsym : sym ≠ "" → sym ∈ alphabet)
    (h : TNInv states alphabet tn) :
    TNInv states alphabet (accumTransition from_state to_state tn sym) := by
  rcases h with ⟨hnd, hpos, hiff, hcl⟩
  unfold accumTransition
  set cur := ((alistGet tn.1 (from_state, sym)).getD []) ++ [to_state] with hcur
  refine ⟨keys_nodup_alistSet hnd, ?_, ?_, ?_⟩
  · intro p hp
    rcases mem_alistSet hp with rfl | hp
    · simp [hcur]
    · exact hpos p hp
  · constructor
    · intro hb
      by_cases hlen : cur.length > 1
      · exact ⟨((from_state, sym), cur), self_mem_alistSet, hlen⟩
      · simp only [hlen, if_false] at hb
        rcases hiff.mp hb with ⟨p, hp, hplen⟩
        by_cases hpk : p.1 = (from_state, sym)
        · exfalso
          have hget : alistGet tn.1 (from_state, sym) = some p.2 := by
            have : (Prod.mk (from_state, sym) p.2) ∈ tn.1 := by
              have : p = ((from_state, sym), p.2) := by
                rcases p with ⟨pk, pv⟩
                simp only at hpk
                rw [hpk]
              exact this ▸ hp
            exact alistGet_eq_some_of_mem_nodup hnd this
          apply hlen
          rw [hcur, hget]
          simp only [Option.getD_some, List.length_append, List.length_cons,
            List.length_nil]
          omega
        · exact ⟨p, mem_alistSet_of_ne hp hpk, hplen⟩
    · rintro ⟨p, hp, hplen⟩
      rcases mem_alistSet hp with rfl | hp
      · have hgt : cur.length > 1 := hplen
        simp [hgt]
      · have hb : tn.2 = true := hiff.mpr ⟨p, hp, hplen⟩
        rw [hb]
        simp
  · intro p hp
    rcases mem_alistSet hp with rfl | hp
    · refine ⟨hfrom, ?_, hsym⟩
      intro t ht
      rw [hcur] at ht
      rcases List.mem_append.mp ht with ht | ht
      · rcases Option.eq_none_or_eq_some (alistGet tn.1 (from_state, sym)) with
          hg | ⟨old, hg⟩
        · rw [hg] at ht
          cases ht
        · rw [hg] at ht
          simp only [Option.getD_some] at ht
          have hmem := mem_of_alistGet_eq_some hg
          exact (hcl _ hmem).2.1 t ht
      · rcases List.mem_singleton.mp ht with rfl
        exact hto
    · exact hcl p hp

theorem foldl_accumTransition_TNInv {states alphabet : List String}
    {from_state to_state : String} {symbols : List String}
    {tn : List ((String × String) × List String) × Bool}
    (hfrom : from_state ∈ states) (hto : to_state ∈ states)
    (hsyms : ∀ sym ∈ symbols, sym ≠ "" → sym ∈ alphabet)
    (h : TNInv states alphabet tn) :
    TNInv states alphabet
      (symbols.foldl (accumTransition from_state to_state) tn) := by
  induction symbols generalizing tn with
  | nil => exact h
  | cons sym rest ih =>
    rw [List.foldl_cons]
    exact ih (fun x hx hne => hsyms x (List.mem_cons_of_mem _ hx) hne)
      (accumTransition_TNInv hfrom hto
        (hsyms sym (List.mem_cons_self _ _)) h)

theorem subset_foldl_addSymbol {symbols : List String} {al : List String} :
    al ⊆ symbols.foldl addSymbol al := by
  induction symbols generalizing al with
  | nil => exact fun _ h => h
  | cons sym rest ih =>
    intro x hx
    rw [List.foldl_cons]
    refine ih ?_
    unfold addSymbol
    split
    · exact subset_setAdd hx
    · exact hx

theorem mem_foldl_addSymbol {symbols : List String} {al : List String}
    {sym : String} (hmem : sym ∈ symbols) (hne : sym ≠ "") :
    sym ∈ symbols.foldl addSymbol al := by
  induction symbols generalizing al with
  | nil => cases hmem
  | cons x rest ih =>
    rw [List.foldl_cons]
    rcases List.mem_cons.mp hmem with rfl | hmem
    · refine subset_foldl_addSymbol ?_
      unfold addSymbol
      rw [if_pos hne]
      exact mem_setAdd_self
    · exact ih hmem

theorem applyEdge_ScanInv {st : ScanState} {from_state to_state : String}
    {symbols : List String} (h : ScanInv st) :
    ScanInv (applyEdge st from_state to_state symbols) := by
  have hfrom : from_state ∈ setAdd (setAdd st.states from_state) to_state :=
    subset_setAdd mem_setAdd_self
  have hto : to_state ∈ setAdd (setAdd st.states from_state) to_state :=
    mem_setAdd_self
  have hsyms : ∀ sym ∈ symbols, sym ≠ "" →
      sym ∈ symbols.foldl addSymbol st.alphabet :=
    fun sym hs hne => mem_foldl_addSymbol hs hne
  have hmono : TNInv (setAdd (setAdd st.states from_state) to_state)
      (symbols.foldl addSymbol st.alphabet) (st.transitions, st.isNfa) := by
    rcases h with ⟨h1, h2, h3, h4⟩
    exact ⟨h1, h2, h3,
      transClosed_mono
        (fun x hx => subset_setAdd (subset_setAdd hx))
        (fun x hx => subset_foldl_addSymbol hx) h4⟩
  have hres := foldl_accumTransition_TNInv hfrom hto hsyms hmono
  unfold ScanInv applyEdge
  exact hres

theorem markFinalPart_fields (st : ScanState) (part : String) :
    (markFinalPart st part).transitions = st.transitions ∧
    (markFinalPart st part).isNfa = st.isNfa ∧
    (markFinalPart st part).alphabet = st.alphabet ∧
    (markFinalPart st part).initial = st.initial ∧
    st.states ⊆ (markFinalPart st part).states := by
  unfold markFinalPart
  dsimp only
  split
  · split
    · exact ⟨rfl, rfl, rfl, rfl, fun x hx => subset_setAdd hx⟩
    · exact ⟨rfl, rfl, rfl, rfl, fun _ hx => hx⟩
  · exact ⟨rfl, rfl, rfl, rfl, fun _ hx => hx⟩

theorem foldl_markFinalPart_fields (parts : List String) (st : ScanState) :
    (parts.foldl markFinalPart st).transitions = st.transitions ∧
    (parts.foldl markFinalPart st).isNfa = st.isNfa ∧
    (parts.foldl markFinalPart st).alphabet = st.alphabet ∧
    (parts.foldl markFinalPart st).initial = st.initial ∧
    st.states ⊆ (parts.foldl markFinalPart st).states := by
  induction parts generalizing st with
  | nil => exact ⟨rfl, rfl, rfl, rfl, fun _ hx => hx⟩
  | cons part rest ih =>
    rw [List.foldl_cons]
    rcases markFinalPart_fields st part with ⟨e1, e2, e3, e4, e5⟩
    rcases ih (markFinalPart st part) with ⟨f1, f2, f3, f4, f5⟩
    exact ⟨f1.trans e1, f2.trans e2, f3.trans e3, f4.trans e4,
      fun x hx => f5 (e5 hx)⟩

theorem processLine_ScanInv {st : ScanState} {rawLine : String}
    (h : ScanInv st) : ScanInv (processLine st rawLine) := by
  unfold processLine
  dsimp only
  split
  · rcases foldl_markFinalPart_fields
      (pySplitChar ';' (pyStrip rawLine)) st with ⟨e1, e2, e3, e4, e5⟩
    rcases h with ⟨h1, h2, h3, h4⟩
    refine ⟨?_, ?_, ?_, ?_⟩
    · rw [e1]; exact h1
    · rw [e1]; exact h2
    · rw [e1, e2]; exact h3
    · rw [e1, e3]
      exact transClosed_mono e5 (fun _ hx => hx) h4
  · split
    · exact h
    · split
      · exact applyEdge_ScanInv h
      · split
        · rcases h with ⟨h1, h2, h3, h4⟩
          exact ⟨h1, h2, h3,
            transClosed_mono (fun x hx => subset_setAdd hx)
              (fun _ hx => hx) h4⟩
        · exact h

theorem initScan_ScanInv : ScanInv initScan := by
  refine ⟨List.nodup_nil, ?_, ?_, ?_⟩
  · intro p hp; cases hp
  · constructor
    · intro hb; exact Bool.noConfusion hb
    · rintro ⟨p, hp, -⟩; cases hp
  · intro p hp; cases hp

theorem scanDot_ScanInv (src : String) : ScanInv (scanDot src) := by
  unfold scanDot
  generalize pySplitChar '\n' src = lines
  induction lines using List.reverseRecOn with
  | nil => exact initScan_ScanInv
  | append_singleton front line ih =>
    rw [List.foldl_append, List.foldl_cons, List.foldl_nil]
    exact processLine_ScanInv ih

/-! ### Lemmas about finalization -/

theorem convertTransition_ok {isNfa : Bool}
    (acc : List ((String × String) × TValue))
    {p : (String × String) × List String}
    (h : isNfa = true ∨ p.2.length = 1) :
    ∃ v, convertTransition isNfa acc p = Except.ok (acc ++ [(p.1, v)]) := by
  unfold convertTransition
  cases isNfa with
  | false =>
    rcases h with h | h
    · cases h
    · exact ⟨TValue.single (p.2.headD ""), by simp [h]⟩
  | true => exact ⟨TValue.many (pySortedSet p.2), by simp⟩

theorem foldlM_convert_ok {isNfa : Bool}
    {l : List ((String × String) × List String)}
    (h : ∀ p ∈ l, isNfa = true ∨ p.2.length = 1) :
    ∀ acc, ∃ res, l.foldlM (convertTransition isNfa) acc = Except.ok res := by
  induction l with
  | nil => exact fun acc => ⟨acc, rfl⟩
  | cons p rest ih =>
    intro acc
    rcases convertTransition_ok acc (h p (List.mem_cons_self _ _))
      with ⟨v, hstep⟩
    rcases ih (fun q hq => h q (List.mem_cons_of_mem _ hq)) (acc ++ [(p.1, v)])
      with ⟨res, hres⟩
    refine ⟨res, ?_⟩
    rw [List.foldlM_cons, hstep]
    exact hres

theorem foldlM_convert_error
    {l : List ((String × String) × List String)}
    (h : ∃ p ∈ l, p.2.length ≠ 1) :
    ∀ acc, ∃ q ∈ l, l.foldlM (convertTransition false) acc =
      Except.error (ParseErr.multiTargets q.1.1 q.1.2 q.2) ∧ q.2.length ≠ 1 := by
  induction l with
  | nil => rcases h with ⟨p, hp, -⟩; cases hp
  | cons p rest ih =>
    intro acc
    by_cases hp1 : p.2.length = 1
    · have hstep : convertTransition false acc p =
          Except.ok (acc ++ [(p.1, TValue.single (p.2.headD ""))]) := by
        simp [convertTransition, hp1]
      have hrest : ∃ q ∈ rest, q.2.length ≠ 1 := by
        rcases h with ⟨q, hq, hqlen⟩
        rcases List.mem_cons.mp hq with rfl | hq
        · exact absurd hp1 hqlen
        · exact ⟨q, hq, hqlen⟩
      rcases ih hrest (acc ++ [(p.1, TValue.single (p.2.headD ""))])
        with ⟨q, hq, hres, hqlen⟩
      refine ⟨q, List.mem_cons_of_mem _ hq, ?_, hqlen⟩
      rw [List.foldlM_cons, hstep]
      exact hres
    · have hstep : convertTransition false acc p =
          Except.error (ParseErr.multiTargets p.1.1 p.1.2 p.2) := by
        simp [convertTransition, hp1]
      refine ⟨p, List.mem_cons_self _ _, ?_, hp1⟩
      rw [List.foldlM_cons, hstep]
      rfl

theorem foldlM_convert_mem {isNfa : Bool}
    {l : List ((String × String) × List String)}
    {acc res : List ((String × String) × TValue)}
    (h : l.foldlM (convertTransition isNfa) acc = Except.ok res) :
    ∀ q ∈ res, q ∈ acc ∨
      ∃ p ∈ l, q.1 = p.1 ∧ ∀ x ∈ tvTargets q.2, x ∈ p.2 := by
  induction l generalizing acc with
  | nil =>
    intro q hq
    simp only [List.foldlM_nil] at h
    cases h
    exact Or.inl hq
  | cons p rest ih =>
    intro q hq
    rw [List.foldlM_cons] at h
    cases hstep : convertTransition isNfa acc p with
    | error e =>
      rw [hstep] at h
      cases h
    | ok acc₂ =>
      rw [hstep] at h
      have h₂ : rest.foldlM (convertTransition isNfa) acc₂ = Except.ok res := h
      have hacc₂ :
          (p.2.length = 1 ∧ acc₂ = acc ++ [(p.1, TValue.single (p.2.headD ""))]) ∨
          acc₂ = acc ++ [(p.1, TValue.many (pySortedSet p.2))] := by
        unfold convertTransition at hstep
        split at hstep
        · split at hstep
          · cases hstep
            exact Or.inl ⟨by assumption, rfl⟩
          · cases hstep
        · cases hstep
          exact Or.inr rfl
      rcases ih h₂ q hq with hmem | ⟨p₂, hp₂, he, hx⟩
      · rcases hacc₂ with ⟨hp1, rfl⟩ | rfl
        · rcases List.mem_append.mp hmem with hmem | hmem
          · exact Or.inl hmem
          · rcases List.mem_singleton.mp hmem with rfl
            refine Or.inr ⟨p, List.mem_cons_self _ _, rfl, ?_⟩
            intro x hx
            rcases List.mem_singleton.mp hx with rfl
            rcases List.length_eq_one.mp hp1 with ⟨y, hy⟩
            rw [hy]
            exact List.mem_singleton.mpr rfl
        · rcases List.mem_append.mp hmem with hmem | hmem
          · exact Or.inl hmem
          · rcases List.mem_singleton.mp hmem with rfl
            refine Or.inr ⟨p, List.mem_cons_self _ _, rfl, ?_⟩
            intro x hx
            exact mem_pySortedSet hx
      · exact Or.inr ⟨p₂, List.mem_cons_of_mem _ hp₂, he, hx⟩

theorem subset_foldl_setAdd {xs : List String} {l : List String} :
    l ⊆ xs.foldl setAdd l := by
  induction xs generalizing l with
  | nil => exact fun _ h => h
  | cons x rest ih =>
    intro z hz
    rw [List.foldl_cons]
    exact ih (subset_setAdd hz)

theorem subset_addEndpoints {sts : List String}
    {p : (String × String) × TValue} : sts ⊆ addEndpoints sts p := by
  unfold addEndpoints
  split
  · exact fun z hz => subset_setAdd (subset_setAdd hz)
  · exact fun z hz => subset_foldl_setAdd (subset_setAdd hz)

theorem subset_foldl_addEndpoints
    {ps : List ((String × String) × TValue)} {sts : List String} :
    sts ⊆ ps.foldl addEndpoints sts := by
  induction ps generalizing sts with
  | nil => exact fun _ h => h
  | cons p rest ih =>
    intro z hz
    rw [List.foldl_cons]
    exact ih (subset_addEndpoints hz)

/-- What a successful finalization guarantees: the scalar fields are
copied, the state set only grows, and every processed transition stems
from an accumulated one with the same key and a subset of its
targets. -/
theorem finalizeScan_ok_spec {st : ScanState} {d : Defn}
    (h : finalizeScan st = Except.ok d) :
    d.alphabet = st.alphabet ∧ d.initial = st.initial ∧
    d.final = st.final ∧ d.isDFA = ! st.isNfa ∧
    st.states ⊆ d.states ∧
    ∀ q ∈ d.transitions, ∃ p ∈ st.transitions, q.1 = p.1 ∧
      ∀ x ∈ tvTargets q.2, x ∈ p.2 := by
  unfold finalizeScan at h
  cases hfold : st.transitions.foldlM (convertTransition st.isNfa)
      ([] : List ((String × String) × TValue)) with
  | error e =>
    rw [hfold] at h
    cases h
  | ok processed =>
    rw [hfold] at h
    have h₂ : Except.ok (ε := ParseErr)
        { isDFA := ! st.isNfa, alphabet := st.alphabet,
          states := processed.foldl addEndpoints st.states,
          initial := st.initial, final := st.final,
          transitions := processed } = Except.ok d := h
    injection h₂ with h₃
    subst h₃
    refine ⟨rfl, rfl, rfl, rfl, subset_foldl_addEndpoints, ?_⟩
    intro q hq
    rcases foldlM_convert_mem hfold q hq with hmem | hrest
    · cases hmem
    · exact hrest

/-- When classification is nondeterministic, or every accumulated list
is a singleton, finalization succeeds. -/
theorem finalizeScan_ok {st : ScanState}
    (h : ∀ p ∈ st.transitions, st.isNfa = true ∨ p.2.length = 1) :
    ∃ d, finalizeScan st = Except.ok d := by
  rcases foldlM_convert_ok h ([] : List ((String × String) × TValue))
    with ⟨res, hres⟩
  refine ⟨{ isDFA := ! st.isNfa, alphabet := st.alphabet,
            states := res.foldl addEndpoints st.states,
            initial := st.initial, final := st.final,
            transitions := res }, ?_⟩
  unfold finalizeScan
  rw [hres]
  rfl

/-- When classification is deterministic but some accumulated list is
not a singleton, finalization raises the `ValueError`, naming the
offending pair and its targets. -/
theorem finalizeScan_error {st : ScanState} (hnfa : st.isNfa = false)
    (h : ∃ p ∈ st.transitions, p.2.length ≠ 1) :
    ∃ q ∈ st.transitions,
      finalizeScan st = Except.error (ParseErr.multiTargets q.1.1 q.1.2 q.2) ∧
      q.2.length ≠ 1 := by
  rcases foldlM_convert_error h ([] : List ((String × String) × TValue))
    with ⟨q, hq, hres, hqlen⟩
  refine ⟨q, hq, ?_, hqlen⟩
  unfold finalizeScan
  rw [hnfa]
  rw [hres]
  rfl

/-! ### Lemmas about the initial state -/

theorem applyEdge_initial {st : ScanState} {from_state to_state : String}
    {symbols : List String} :
    (applyEdge st from_state to_state symbols).initial = st.initial := rfl

/-- A line whose stripped form does not start with the sentinel edge
`"null ->"` never changes the recorded initial state. -/
theorem processLine_initial {st : ScanState} {rawLine : String}
    (h : pyStartsWith "null ->" (pyStrip rawLine) = false) :
    (processLine st rawLine).initial = st.initial := by
  unfold processLine
  dsimp only
  split
  · exact (foldl_markFinalPart_fields (pySplitChar ';' (pyStrip rawLine))
      st).2.2.2.1
  · split
    · rfl
    · split
      · exact applyEdge_initial
      · split
        · rename_i hguard
          rw [h] at hguard
          cases hguard
        · rfl

/-- Graph text without any initial-state-designating line leaves the
initial state unset. -/
theorem scanDot_initial {src : String}
    (h : ∀ line ∈ pySplitChar '\n' src,
      pyStartsWith "null ->" (pyStrip line) = false) :
    (scanDot src).initial = none := by
  unfold scanDot
  have H : ∀ (lines : List String) (st : ScanState),
      (∀ line ∈ lines, pyStartsWith "null ->" (pyStrip line) = false) →
      (lines.foldl processLine st).initial = st.initial := by
    intro lines
    induction lines with
    | nil => intro st _; rfl
    | cons line rest ih =>
      intro st hl
      rw [List.foldl_cons]
      rw [ih (processLine st line)
        (fun x hx => hl x (List.mem_cons_of_mem _ hx))]
      exact processLine_initial (hl line (List.mem_cons_self _ _))
  exact H _ initScan h

/-! ### Lemmas about deserialization -/

theorem deserPair_ok_iff {isdfa : Bool}
    {acc : List ((String × String) × TValue)} {kv : String × TValue} :
    (∃ t, deserPair isdfa acc kv = Except.ok t) ↔
      (pySplitChar ',' kv.1).length = 2 := by
  unfold deserPair
  cases hsplit : pySplitChar ',' kv.1 with
  | nil => simp
  | cons a rest =>
    cases rest with
    | nil => simp
    | cons b rest₂ =>
      cases rest₂ with
      | nil => simp
      | cons c rest₃ => simp

theorem foldlM_deserPair_ok_iff (isdfa : Bool)
    {l : List (String × TValue)} :
    ∀ acc, (∃ ts, l.foldlM (deserPair isdfa) acc = Except.ok ts) ↔
      ∀ kv ∈ l, (pySplitChar ',' kv.1).length = 2 := by
  induction l with
  | nil =>
    intro acc
    constructor
    · intro _ kv hkv
      cases hkv
    · intro _
      exact ⟨acc, rfl⟩
  | cons kv rest ih =>
    intro acc
    rw [List.foldlM_cons]
    constructor
    · rintro ⟨ts, hts⟩
      cases hstep : deserPair isdfa acc kv with
      | error e =>
        rw [hstep] at hts
        cases hts
      | ok acc₂ =>
        have hlen : (pySplitChar ',' kv.1).length = 2 :=
          deserPair_ok_iff.mp ⟨acc₂, hstep⟩
        intro q hq
        rcases List.mem_cons.mp hq with rfl | hq
        · exact hlen
        · rw [hstep] at hts
          have hts₂ : rest.foldlM (deserPair isdfa) acc₂ = Except.ok ts := hts
          exact (ih acc₂).mp ⟨ts, hts₂⟩ q hq
    · intro hall
      rcases deserPair_ok_iff.mpr (hall kv (List.mem_cons_self _ _))
        with ⟨acc₂, hstep⟩
      rcases (ih acc₂).mpr (fun q hq => hall q (List.mem_cons_of_mem _ hq))
        with ⟨ts, hts⟩
      refine ⟨ts, ?_⟩
      rw [hstep]
      exact hts

theorem deserialize_ok_iff {r : Record} :
    (∃ d, deserialize_automaton r = Except.ok d) ↔
      ∀ kv ∈ r.transitions, (pySplitChar ',' kv.1).length = 2 := by
  unfold deserialize_automaton
  dsimp only
  constructor
  · rintro ⟨d, hd⟩
    cases hfold : r.transitions.foldlM (deserPair (r.type == "dfa"))
        ([] : List ((String × String) × TValue)) with
    | error e =>
      rw [hfold] at hd
      cases hd
    | ok ts =>
      exact (foldlM_deserPair_ok_iff (r.type == "dfa") _).mp ⟨ts, hfold⟩
  · intro hall
    rcases (foldlM_deserPair_ok_iff (r.type == "dfa")
        ([] : List ((String × String) × TValue))).mpr hall with ⟨ts, hts⟩
    refine ⟨{ isDFA := (r.type == "dfa"), alphabet := r.alphabet,
              states := r.states, initial := r.initial, final := r.final,
              transitions := ts }, ?_⟩
    rw [hts]
    rfl

theorem deserialize_fields {r : Record} {d : Defn}
    (h : deserialize_automaton r = Except.ok d) :
    d.isDFA = (r.type == "dfa") ∧ d.alphabet = r.alphabet ∧
    d.states = r.states ∧ d.initial = r.initial ∧ d.final = r.final := by
  unfold deserialize_automaton at h
  dsimp only at h
  cases hfold : r.transitions.foldlM (deserPair (r.type == "dfa"))
      ([] : List ((String × String) × TValue)) with
  | error e =>
    rw [hfold] at h
    cases h
  | ok ts =>
    rw [hfold] at h
    have h₂ : Except.ok (ε := String)
        { isDFA := (r.type == "dfa"), alphabet := r.alphabet,
          states := r.states, initial := r.initial, final := r.final,
          transitions := ts } = Except.ok d := h
    injection h₂ with h₃
    subst h₃
    exact ⟨rfl, rfl, rfl, rfl, rfl⟩

theorem foldlM_deserPair_roundtrip (isdfa : Bool) (sv : TValue → TValue)
    {l : List ((String × String) × TValue)}
    (hkeys : ∀ p ∈ l, (',' : Char) ∉ p.1.1.data ∧ (',' : Char) ∉ p.1.2.data)
    (hvals : ∀ p ∈ l,
      (if isdfa then sv p.2 else TValue.many (pyIterate (sv p.2))) = p.2)
    (hnd : (l.map Prod.fst).Nodup) :
    ∀ acc, (∀ p ∈ l, p.1 ∉ acc.map Prod.fst) →
      (l.map (fun p => (p.1.1 ++ "," ++ p.1.2, sv p.2))).foldlM
        (deserPair isdfa) acc = Except.ok (acc ++ l) := by
  induction l with
  | nil =>
    intro acc _
    show Except.ok acc = Except.ok (acc ++ [])
    rw [List.append_nil]
  | cons p rest ih =>
    intro acc hfresh
    rw [List.map_cons, List.foldlM_cons]
    have hsplit : pySplitChar ',' (p.1.1 ++ "," ++ p.1.2) = [p.1.1, p.1.2] :=
      pySplitChar_comma_key (hkeys p (List.mem_cons_self _ _)).1
        (hkeys p (List.mem_cons_self _ _)).2
    have hstep : deserPair isdfa acc (p.1.1 ++ "," ++ p.1.2, sv p.2) =
        Except.ok (acc ++ [p]) := by
      unfold deserPair
      rw [hsplit]
      dsimp only
      rw [hvals p (List.mem_cons_self _ _)]
      rw [alistSet_of_not_mem_keys (hfresh p (List.mem_cons_self _ _))]
    rw [hstep]
    have hfresh₂ : ∀ q ∈ rest, q.1 ∉ (acc ++ [p]).map Prod.fst := by
      intro q hq hmem
      rw [List.map_append, List.mem_append] at hmem
      rcases hmem with hmem | hmem
      · exact hfresh q (List.mem_cons_of_mem _ hq) hmem
      · rw [List.map_cons, List.map_nil, List.mem_singleton] at hmem
        rw [List.map_cons, List.nodup_cons] at hnd
        exact hnd.1 (hmem ▸ List.mem_map.mpr ⟨q, hq, rfl⟩)
    have hres := ih (fun q hq => hkeys q (List.mem_cons_of_mem _ hq))
      (fun q hq => hvals q (List.mem_cons_of_mem _ hq))
      (by rw [List.map_cons, List.nodup_cons] at hnd; exact hnd.2)
      (acc ++ [p]) hfresh₂
    rw [List.append_assoc] at hres
    exact hres

/-! ### Claim theorems -/

/-- C8: graph text marking `q1` with the double-shape node marker,
designating `q0` as initial via the start edge, and carrying the four
labeled edges `q0->q0` on `0`, `q0->q1` on `1`, `q1->q1` on `0`,
`q1->q0` on `1`, reconstructs a deterministic automaton with states
`{q0, q1}`, alphabet `{0, 1}`, initial `q0`, final `{q1}`, and exactly
those four transitions, each with a single target. -/
theorem C8_concrete_reconstruction :
    parse_dot_file ("node [shape = doublecircle] q1\nnull -> q0\n" ++
        "q0 -> q0 [label = \"0\"]\nq0 -> q1 [label = \"1\"]\n" ++
        "q1 -> q1 [label = \"0\"]\nq1 -> q0 [label = \"1\"]") =
      Except.ok
        { isDFA := true
          alphabet := ["0", "1"]
          states := ["q1", "q0"]
          initial := some "q0"
          final := ["q1"]
          transitions := [(("q0", "0"), TValue.single "q0"),
            (("q0", "1"), TValue.single "q1"),
            (("q1", "0"), TValue.single "q1"),
            (("q1", "1"), TValue.single "q0")] } := by
  decide

/-- C1 counterexample: graph text in which the single `(source, label)`
pair `(q0, a)` maps to exactly one target `q1`, with the edge line
repeated verbatim, is classified nondeterministic (`isDFA = false`),
not deterministic as the claim states. -/
theorem C1_counterexample :
    parse_dot_file "null -> q0\nq0 -> q1 [label = \"a\"]\nq0 -> q1 [label = \"a\"]" =
      Except.ok
        { isDFA := false
          alphabet := ["a"]
          states := ["q0", "q1"]
          initial := some "q0"
          final := []
          transitions := [(("q0", "a"), TValue.many ["q1"])] } := by
  decide

/-- C1 (amended): the reconstructed automaton is classified
nondeterministic if and only if some `(source, symbol)` pair
accumulated more than one target OCCURRENCE during the scan (counting
repetitions of the same target); a repeated identical edge line
therefore flips the classification to nondeterministic even though
only one distinct target exists. -/
theorem C1_kind_inference (src : String) (d : Defn)
    (h : parse_dot_file src = Except.ok d) :
    d.isDFA = false ↔ ∃ p ∈ (scanDot src).transitions, 2 ≤ p.2.length := by
  have hspec := finalizeScan_ok_spec (h := h)
  have hiff := (scanDot_ScanInv src).2.2.1
  rw [hspec.2.2.2.1]
  cases hb : (scanDot src).isNfa with
  | false =>
    rw [hb] at hiff
    simp only [Bool.not_false]
    constructor
    · intro htf
      cases htf
    · intro hex
      exact absurd (hiff.mpr hex) (by simp)
  | true =>
    rw [hb] at hiff
    simp only [Bool.not_true]
    constructor
    · intro _
      exact hiff.mp rfl
    · intro _
      trivial

/-- C1 witness: the kind-inference equivalence applied to a concrete
one-edge graph text. -/
theorem C1_witness :
    (({ isDFA := true, alphabet := ["a"], states := ["q0"],
        initial := some "q0", final := [],
        transitions := [(("q0", "a"), TValue.single "q0")] } : Defn).isDFA
          = false) ↔
      ∃ p ∈ (scanDot "null -> q0\nq0 -> q0 [label = \"a\"]").transitions,
        2 ≤ p.2.length :=
  C1_kind_inference "null -> q0\nq0 -> q0 [label = \"a\"]" _ (by decide)

/-- C5 counterexample: graph text with no initial-state-designating
line reconstructs successfully into a definition whose initial state
is the null placeholder; no `MissingInitialState` failure occurs. -/
theorem C5_counterexample :
    parse_dot_file "a -> b" =
      Except.ok
        { isDFA := true
          alphabet := []
          states := ["a", "b"]
          initial := none
          final := []
          transitions := [(("a", ""), TValue.single "b")] } := by
  decide

/-- C5 (amended): for every graph text containing no
initial-state-designating line, reconstruction still succeeds and
yields a definition whose initial state is unset (`None`); the
reconstructor performs no missing-initial-state check. -/
theorem C5_no_initial_check (src : String)
    (h : ∀ line ∈ pySplitChar '\n' src,
      pyStartsWith "null ->" (pyStrip line) = false) :
    ∃ d, parse_dot_file src = Except.ok d ∧ d.initial = none := by
  have hinv := scanDot_ScanInv src
  have hok : ∃ d, finalizeScan (scanDot src) = Except.ok d := by
    apply finalizeScan_ok
    intro p hp
    cases hb : (scanDot src).isNfa with
    | true => exact Or.inl rfl
    | false =>
      refine Or.inr ?_
      have hpos := hinv.2.1 p hp
      have hnot2 : ¬ 2 ≤ p.2.length := by
        intro h2
        have := hinv.2.2.1.mpr ⟨p, hp, h2⟩
        rw [hb] at this
        cases this
      omega
  rcases hok with ⟨d, hd⟩
  refine ⟨d, hd, ?_⟩
  rw [(finalizeScan_ok_spec (h := hd)).2.1]
  exact scanDot_initial h

/-- C5 witness: the amended statement applied to concrete graph text
consisting of a single unlabeled edge line. -/
theorem C5_witness :
    ∃ d, parse_dot_file "a -> b" = Except.ok d ∧ d.initial = none :=
  C5_no_initial_check "a -> b" (by decide)

/-- C6 counterexample: an unlabeled transition line produces the empty
symbol in the transition key `("x", "")`, yet the alphabet of the
reconstructed definition is empty — the empty symbol is not a member
of the alphabet, contrary to the claim. -/
theorem C6_counterexample :
    parse_dot_file "x -> y\nnull -> x" =
      Except.ok
        { isDFA := true
          alphabet := []
          states := ["x", "y"]
          initial := some "x"
          final := []
          transitions := [(("x", ""), TValue.single "y")] } := by
  decide

/-- C6 (amended): in every successfully reconstructed definition,
every state appearing as a transition endpoint is a member of the
state set, and every NON-EMPTY symbol appearing in a transition key is
a member of the alphabet; the empty symbol produced for unlabeled
lines appears in transition keys but is never added to the
alphabet. -/
theorem C6_closure (src : String) (d : Defn)
    (h : parse_dot_file src = Except.ok d) :
    ∀ p ∈ d.transitions, p.1.1 ∈ d.states ∧
      (∀ x ∈ tvTargets p.2, x ∈ d.states) ∧
      (p.1.2 ≠ "" → p.1.2 ∈ d.alphabet) := by
  have hspec := finalizeScan_ok_spec (h := h)
  have hcl := (scanDot_ScanInv src).2.2.2
  intro q hq
  rcases hspec.2.2.2.2.2 q hq with ⟨p, hp, hkey, htargets⟩
  rcases hcl p hp with ⟨hsrc, hts, hsym⟩
  refine ⟨?_, ?_, ?_⟩
  · rw [hkey]
    exact hspec.2.2.2.2.1 hsrc
  · intro x hx
    exact hspec.2.2.2.2.1 (hts x (htargets x hx))
  · intro hne
    rw [hspec.1]
    rw [hkey] at hne ⊢
    exact hsym hne
/-- C6 witness: the closure statement applied to a concrete labeled
edge of a reconstructed definition. -/
theorem C6_witness :
    "s0" ∈ ["s0", "s1"] ∧
    (∀ x ∈ tvTargets (TValue.single "s1"), x ∈ ["s0", "s1"]) ∧
    ("u" ≠ "" → "u" ∈ ["u"]) :=
  C6_closure "s0 -> s1 [label = \"u\"]\nnull -> s0"
    { isDFA := true, alphabet := ["u"], states := ["s0", "s1"],
      initial := some "s0", final := [],
      transitions := [(("s0", "u"), TValue.single "s1")] }
    (by decide) (("s0", "u"), TValue.single "s1") (by decide)

/-- C7 counterexample: a persisted record whose composite key
`"a,b,c"` contains two separators makes decode fail with the
`ValueError`, instead of being split at the first separator as the
claim states. -/
theorem C7_counterexample :
    deserialize_automaton
        { type := "dfa"
          alphabet := ["b"]
          states := ["a", "c"]
          initial := some "a"
          final := []
          transitions := [("a,b,c", TValue.single "c")] } =
      Except.error "ValueError: key does not unpack into state, symbol" := by
  decide

/-- C7 (amended): decode succeeds if and only if every composite
transition key splits on the separator into exactly two parts; a key
containing more than one separator (or none) makes decode fail with
the unpack `ValueError`, it is NOT split at the first separator. -/
theorem C7_key_splitting (r : Record) :
    (∃ d, deserialize_automaton r = Except.ok d) ↔
      ∀ kv ∈ r.transitions, (pySplitChar ',' kv.1).length = 2 :=
  deserialize_ok_iff

/-- C9: the guard on deterministic finalization: (a) for any scan
state classified deterministic in which some pair accumulated two or
more distinct targets, finalization fails with the `ValueError`
naming an offending pair and its targets; (b) under the
classification rule actually used during aggregation this branch is
unreachable — reconstruction succeeds on every input graph text. -/
theorem C9_inconsistent_determinism_guard :
    (∀ st : ScanState, st.isNfa = false →
      ∀ p ∈ st.transitions, 2 ≤ p.2.dedup.length →
      ∃ q ∈ st.transitions,
        finalizeScan st =
          Except.error (ParseErr.multiTargets q.1.1 q.1.2 q.2) ∧
        q.2.length ≠ 1) ∧
    (∀ src : String, ∃ d, parse_dot_file src = Except.ok d) := by
  constructor
  · intro st hnfa p hp hdedup
    apply finalizeScan_error hnfa
    refine ⟨p, hp, ?_⟩
    have hle : p.2.dedup.length ≤ p.2.length :=
      (List.dedup_sublist p.2).length_le
    omega
  · intro src
    have hinv := scanDot_ScanInv src
    apply finalizeScan_ok
    intro p hp
    cases hb : (scanDot src).isNfa with
    | true => exact Or.inl rfl
    | false =>
      refine Or.inr ?_
      have hpos := hinv.2.1 p hp
      have hnot2 : ¬ 2 ≤ p.2.length := by
        intro h2
        have := hinv.2.2.1.mpr ⟨p, hp, h2⟩
        rw [hb] at this
        cases this
      omega

/-- C9 witness: the guard applied to a concrete scan state carrying
two distinct targets for `(q0, a)` while classified deterministic, and
the totality part applied to a concrete graph text. -/
theorem C9_witness :
    (∃ q ∈ (⟨["q0", "q1", "q2"], ["a"], [(("q0", "a"), ["q1", "q2"])],
        some "q0", [], false⟩ : ScanState).transitions,
      finalizeScan
          (⟨["q0", "q1", "q2"], ["a"], [(("q0", "a"), ["q1", "q2"])],
            some "q0", [], false⟩ : ScanState) =
        Except.error (ParseErr.multiTargets q.1.1 q.1.2 q.2) ∧
      q.2.length ≠ 1) ∧
    (∃ d, parse_dot_file "q0 -> q1" = Except.ok d) :=
  ⟨C9_inconsistent_determinism_guard.1
      (⟨["q0", "q1", "q2"], ["a"], [(("q0", "a"), ["q1", "q2"])],
        some "q0", [], false⟩ : ScanState)
      (by decide) (("q0", "a"), ["q1", "q2"]) (by decide) (by decide),
    C9_inconsistent_determinism_guard.2 "q0 -> q1"⟩

/-- C10: decode performs no membership validation: every record whose
composite keys all split into exactly two parts decodes successfully,
and the resulting definition copies the record fields verbatim — even
when the record violates the structural invariants. -/
theorem C10_no_validation (r : Record)
    (h : ∀ kv ∈ r.transitions, (pySplitChar ',' kv.1).length = 2) :
    ∃ d, deserialize_automaton r = Except.ok d ∧
      d.isDFA = (r.type == "dfa") ∧ d.alphabet = r.alphabet ∧
      d.states = r.states ∧ d.initial = r.initial ∧ d.final = r.final := by
  rcases deserialize_ok_iff.mpr h with ⟨d, hd⟩
  exact ⟨d, hd, deserialize_fields hd⟩

/-- C10 witness: decode succeeds on a record whose initial state is
outside the state set, whose final set is not contained in the state
set, and whose transition symbol is outside the alphabet. -/
theorem C10_witness :
    ∃ d, deserialize_automaton
        { type := "dfa", alphabet := [], states := ["s"],
          initial := some "q9", final := ["zz"],
          transitions := [("s,x", TValue.single "w")] } = Except.ok d ∧
      d.isDFA = (("dfa" : String) == "dfa") ∧ d.alphabet = [] ∧
      d.states = ["s"] ∧ d.initial = some "q9" ∧ d.final = ["zz"] :=
  C10_no_validation _ (by decide)

/-- C2: round-trip law of the definition codec: for every assembled
definition whose state and symbol names contain no separator, whose
composite keys are pairwise distinct, and whose values have the shape
produced by the corresponding constructor (tuples for the
nondeterministic kind), decoding the encoding returns the definition
unchanged — kind, state set, alphabet, initial state, final set and
transitions included. -/
theorem C2_roundtrip (d : Defn)
    (hkeys : ∀ p ∈ d.transitions,
      (',' : Char) ∉ p.1.1.data ∧ (',' : Char) ∉ p.1.2.data)
    (hnodup : (d.transitions.map Prod.fst).Nodup)
    (hnfa : d.isDFA = false → ∀ p ∈ d.transitions, ∃ l, p.2 = TValue.many l) :
    deserialize_automaton (serialize_automaton d) = Except.ok d := by
  have hisdfa : ((if d.isDFA then "dfa" else "nfa") == "dfa") = d.isDFA := by
    cases d.isDFA <;> rfl
  have hvals : ∀ p ∈ d.transitions,
      (if d.isDFA
        then (fun v => if d.isDFA then v else TValue.many (pyIterate v)) p.2
        else TValue.many (pyIterate
          ((fun v => if d.isDFA then v else TValue.many (pyIterate v)) p.2)))
        = p.2 := by
    intro p hp
    cases hd : d.isDFA with
    | true => simp
    | false =>
      rcases hnfa hd p hp with ⟨l₀, hl₀⟩
      simp [hl₀, pyIterate]
  have hfold := foldlM_deserPair_roundtrip d.isDFA
    (fun v => if d.isDFA then v else TValue.many (pyIterate v))
    hkeys hvals hnodup [] (by intro p hp hmem; simp at hmem)
  unfold deserialize_automaton serialize_automaton
  dsimp only
  rw [hisdfa, hfold]
  show Except.ok
      { isDFA := d.isDFA, alphabet := d.alphabet, states := d.states,
        initial := d.initial, final := d.final,
        transitions := [] ++ d.transitions } = Except.ok d
  rw [List.nil_append]

/-- C2 witness: the round trip on a concrete two-state deterministic
definition. -/
theorem C2_witness :
    deserialize_automaton (serialize_automaton
      { isDFA := true, alphabet := ["0", "1"], states := ["q0", "q1"],
        initial := some "q0", final := ["q1"],
        transitions := [(("q0", "0"), TValue.single "q0"),
          (("q0", "1"), TValue.single "q1")] }) =
      Except.ok
        { isDFA := true, alphabet := ["0", "1"], states := ["q0", "q1"],
          initial := some "q0", final := ["q1"],
          transitions := [(("q0", "0"), TValue.single "q0"),
            (("q0", "1"), TValue.single "q1")] } :=
  C2_roundtrip _ (by decide) (by decide)
    (by intro hfalse; exact absurd hfalse (by decide))

/-- C3 counterexample: the interactive creator (`fsm_creator.py`) is
an entry point that builds a deterministic transition table from flat
records, and it silently overwrites: after entering `q0,a,q1` the pair
`(q0, a)` maps to `q1`, and entering `q0,a,q2` afterwards replaces the
target with `q2` instead of rejecting the duplicate. -/
theorem C3_counterexample :
    creatorBuildDFA ["q0", "q1", "q2"] ["a"] ["q0,a,q1"] =
      [(("q0", "a"), "q1")] ∧
    creatorBuildDFA ["q0", "q1", "q2"] ["a"] ["q0,a,q1", "q0,a,q2"] =
      [(("q0", "a"), "q2")] := by
  decide

/-- C3 (amended): the flat deterministic builder of `main3-0.py`
rejects a second definition for an already-assigned `(state, symbol)`
pair with the duplicate-transition error and never overwrites, but the
interactive creator of `fsm_creator.py` performs no duplicate check
and silently overwrites the earlier target. -/
theorem C3_duplicate_handling
    (states alphabet : List String) (rs : List String)
    (table : List ((String × String) × String)) (r s a t t₀ : String)
    (hbuild : buildDFATable states alphabet rs = Except.ok table)
    (hsplit : (pySplitChar ',' r).map pyStrip = [s, a, t])
    (hs : s ∈ states) (ha : a ∈ alphabet) (ht : t ∈ states)
    (hdup : alistGet table (s, a) = some t₀) :
    buildDFATable states alphabet (rs ++ [r]) =
      Except.error (BuildErr.duplicate s a) ∧
    alistGet (creatorDFAStep states alphabet table r) (s, a) = some t := by
  constructor
  · have hstep : addDFATransition states alphabet table r =
        Except.error (BuildErr.duplicate s a) := by
      unfold addDFATransition
      rw [hsplit]
      dsimp only
      rw [if_neg (not_not_intro hs), if_neg (not_not_intro ha),
        if_neg (not_not_intro ht), if_pos (by rw [hdup]; rfl)]
    unfold buildDFATable at hbuild ⊢
    rw [List.foldlM_append, hbuild]
    have h₂ : List.foldlM (addDFATransition states alphabet) table [r] =
        Except.error (BuildErr.duplicate s a) := by
      rw [List.foldlM_cons, hstep]
      rfl
    exact h₂
  · have hstep : creatorDFAStep states alphabet table r =
        alistSet table (s, a) t := by
      unfold creatorDFAStep
      rw [hsplit]
      dsimp only
      rw [if_neg (by simp), if_neg (not_not_intro hs),
        if_neg (not_not_intro ha), if_neg (by simp [ht]),
        if_neg (by simp)]
      rfl
    rw [hstep]
    exact alistGet_alistSet_self

/-- C3 witness: the duplicate handling applied to a concrete build in
which `(q0, a)` is already assigned. -/
theorem C3_witness :
    buildDFATable ["q0", "q1"] ["a"] (["q0,a,q0"] ++ ["q0,a,q1"]) =
      Except.error (BuildErr.duplicate "q0" "a") ∧
    alistGet (creatorDFAStep ["q0", "q1"] ["a"] [(("q0", "a"), "q0")]
      "q0,a,q1") ("q0", "a") = some "q1" :=
  C3_duplicate_handling ["q0", "q1"] ["a"] ["q0,a,q0"] [(("q0", "a"), "q0")]
    "q0,a,q1" "q0" "a" "q1" "q0" (by decide) (by decide) (by decide)
    (by decide) (by decide) (by decide)

/-- C4 counterexample: two nondeterministic records repeating the pair
`(q0, a)` with the same target `q1` accumulate the tuple
`("q1", "q1")`, which contains a duplicate entry — the stored value is
tuple concatenation, not a duplicate-free set union. -/
theorem C4_counterexample :
    buildNFATable ["q0", "q1"] ["a"] ["q0,a,q1", "q0,a,q1"] =
      Except.ok [(("q0", "a"), ["q1", "q1"])] ∧
    ¬ (["q1", "q1"] : List String).Nodup := by
  constructor
  · decide
  · decide

/-- C4 (amended): repeating the same `(state, symbol)` pair across two
valid nondeterministic records accumulates the CONCATENATION of the
two target tuples, in record order; membership-wise the result equals
the union of the two target lists whichever order the records appear
in, but duplicate entries are retained. -/
theorem C4_accumulation
    (states alphabet : List String) (r₁ r₂ s a : String)
    (ts₁ ts₂ : List String)
    (h₁ : (pySplitChar ',' r₁).map pyStrip = s :: a :: ts₁)
    (h₂ : (pySplitChar ',' r₂).map pyStrip = s :: a :: ts₂)
    (hts₁ : ts₁ ≠ []) (hts₂ : ts₂ ≠ [])
    (hs : s ∈ states) (ha : a ∈ alphabet)
    (hin₁ : ∀ x ∈ ts₁, x ∈ states) (hin₂ : ∀ x ∈ ts₂, x ∈ states) :
    buildNFATable states alphabet [r₁, r₂] =
      Except.ok [((s, a), ts₁ ++ ts₂)] ∧
    buildNFATable states alphabet [r₂, r₁] =
      Except.ok [((s, a), ts₂ ++ ts₁)] ∧
    ∀ x : String, (x ∈ ts₁ ++ ts₂ ↔ x ∈ ts₁ ∨ x ∈ ts₂) ∧
      (x ∈ ts₁ ++ ts₂ ↔ x ∈ ts₂ ++ ts₁) := by
  have hfirst : ∀ (r : String) (ts : List String),
      (pySplitChar ',' r).map pyStrip = s :: a :: ts → ts ≠ [] →
      (∀ x ∈ ts, x ∈ states) →
      addNFATransition states alphabet [] r = Except.ok [((s, a), ts)] := by
    intro r ts hr hts hin
    unfold addNFATransition
    rw [hr]
    dsimp only
    rw [if_neg hts, if_neg (not_not_intro hs), if_neg (not_not_intro ha)]
    rw [List.find?_eq_none.mpr (fun x hx => by simp [hin x hx])]
    rfl
  have hsecond : ∀ (r : String) (tsOld tsNew : List String),
      (pySplitChar ',' r).map pyStrip = s :: a :: tsNew → tsNew ≠ [] →
      (∀ x ∈ tsNew, x ∈ states) →
      addNFATransition states alphabet [((s, a), tsOld)] r =
        Except.ok [((s, a), tsOld ++ tsNew)] := by
    intro r tsOld tsNew hr hts hin
    unfold addNFATransition
    rw [hr]
    dsimp only
    rw [if_neg hts, if_neg (not_not_intro hs), if_neg (not_not_intro ha)]
    rw [List.find?_eq_none.mpr (fun x hx => by simp [hin x hx])]
    rw [show alistGet [((s, a), tsOld)] (s, a) = some tsOld by
      simp [alistGet]]
    dsimp only
    rw [show alistSet [((s, a), tsOld)] (s, a) (tsOld ++ tsNew) =
      [((s, a), tsOld ++ tsNew)] by simp [alistSet]]
  refine ⟨?_, ?_, ?_⟩
  · unfold buildNFATable
    rw [List.foldlM_cons, hfirst r₁ ts₁ h₁ hts₁ hin₁]
    have h₃ : List.foldlM (addNFATransition states alphabet)
        [((s, a), ts₁)] [r₂] = Except.ok [((s, a), ts₁ ++ ts₂)] := by
      rw [List.foldlM_cons, hsecond r₂ ts₁ ts₂ h₂ hts₂ hin₂]
      rfl
    exact h₃
  · unfold buildNFATable
    rw [List.foldlM_cons, hfirst r₂ ts₂ h₂ hts₂ hin₂]
    have h₃ : List.foldlM (addNFATransition states alphabet)
        [((s, a), ts₂)] [r₁] = Except.ok [((s, a), ts₂ ++ ts₁)] := by
      rw [List.foldlM_cons, hsecond r₁ ts₂ ts₁ h₁ hts₁ hin₁]
      rfl
    exact h₃
  · intro x
    constructor
    · exact List.mem_append
    · rw [List.mem_append, List.mem_append]
      exact Or.comm

/-- C4 witness: the accumulation law applied to two concrete records
repeating `(q0, a)` with different target tuples. -/
theorem C4_witness :
    (buildNFATable ["q0", "q1", "q2"] ["a"] ["q0,a,q1", "q0,a,q2"] =
      Except.ok [(("q0", "a"), ["q1"] ++ ["q2"])] ∧
    buildNFATable ["q0", "q1", "q2"] ["a"] ["q0,a,q2", "q0,a,q1"] =
      Except.ok [(("q0", "a"), ["q2"] ++ ["q1"])] ∧
    ∀ x : String, (x ∈ ["q1"] ++ ["q2"] ↔ x ∈ ["q1"] ∨ x ∈ ["q2"]) ∧
      (x ∈ ["q1"] ++ ["q2"] ↔ x ∈ ["q2"] ++ ["q1"])) :=
  C4_accumulation ["q0", "q1", "q2"] ["a"] "q0,a,q1" "q0,a,q2" "q0" "a"
    ["q1"] ["q2"] (by decide) (by decide) (by decide) (by decide)
    (by decide) (by decide) (by decide) (by decide)

end PyFSA
